import Mathlib

/-!
Shallow embedding of `homoHanzi.py` (a Chinese-character learning store).

Python dictionaries are modelled as insertion-ordered association lists,
Python sets as duplicate-free lists extended at the back, exceptions as
`Option` (a raised exception inside a parse is `none`), and the YAML
frontmatter payload of a record file as an association list from string
keys to a small value type `Yval`.  The PyYAML dump/load pair and the
frontmatter regex extraction are treated as a faithful serialization of
that association list (the structured payload level at which the spec
states its round-trip property).
-/

namespace HomoHanzi

/-- Embeds the `RadicalType` enumeration of the source. -/
inductive RadicalType where
  | SEMANTIC
  | PHONETIC
  | BOTH
  | UNKNOWN
deriving DecidableEq

/-- The `.value` string of each `RadicalType` member. -/
def RadicalType.value : RadicalType → String
  | .SEMANTIC => "semantic"
  | .PHONETIC => "phonetic"
  | .BOTH => "both"
  | .UNKNOWN => "unknown"

/-- Embeds the Python call `RadicalType(s)`: the member whose value is `s`,
`none` when `s` is outside the enumeration (Python raises `ValueError`). -/
def RadicalType.ofValue : String → Option RadicalType
  | "semantic" => some .SEMANTIC
  | "phonetic" => some .PHONETIC
  | "both" => some .BOTH
  | "unknown" => some .UNKNOWN
  | _ => none

/-- Embeds the `StrokeType` enumeration of the source. -/
inductive StrokeType where
  | HORIZONTAL
  | VERTICAL
  | LEFT_DIAGONAL
  | RIGHT_DIAGONAL
  | DOT
  | HOOK
  | RISING
  | BEND
deriving DecidableEq

/-- The `.value` string of each `StrokeType` member. -/
def StrokeType.value : StrokeType → String
  | .HORIZONTAL => "横"
  | .VERTICAL => "竖"
  | .LEFT_DIAGONAL => "撇"
  | .RIGHT_DIAGONAL => "捺"
  | .DOT => "点"
  | .HOOK => "钩"
  | .RISING => "提"
  | .BEND => "折"

/-- Embeds the Python call `StrokeType(s)`; `none` when `s` is outside the
enumeration (Python raises `ValueError`). -/
def StrokeType.ofValue : String → Option StrokeType
  | "横" => some .HORIZONTAL
  | "竖" => some .VERTICAL
  | "撇" => some .LEFT_DIAGONAL
  | "捺" => some .RIGHT_DIAGONAL
  | "点" => some .DOT
  | "钩" => some .HOOK
  | "提" => some .RISING
  | "折" => some .BEND
  | _ => none

/-- Embeds the `Radical` dataclass. -/
structure Radical where
  character : String
  pinyin : String
  meaning : String
  type : RadicalType
  strokes : Int
  stroke_order : List StrokeType := []
  common_characters : List String := []
  mnemonic : String := ""
deriving DecidableEq

/-- Embeds the `Character` dataclass.  `example_words` is a list of Python
`Dict[str, str]` values, modelled as association lists. -/
structure Character where
  character : String
  pinyin : String
  tone : Int
  meaning : List String
  radicals : List String
  strokes : Int
  stroke_order : List StrokeType := []
  components : List String := []
  hsk_level : Int := 0
  frequency_rank : Int := 0
  mnemonic : String := ""
  example_words : List (List (String × String)) := []
  tags : List String := []
deriving DecidableEq

/-- ASCII lowercasing of one character, embedding Python `str.lower` on
the ASCII range (which covers the pinyin, meaning and tag data of this
system). -/
def lowerChar (c : Char) : Char :=
  if 'A' ≤ c ∧ c ≤ 'Z' then Char.ofNat (c.toNat + 32) else c

/-- Embeds Python `s.lower()` over the character list of `s`. -/
def lowerList (l : List Char) : List Char := l.map lowerChar

/-- Whitespace test backing the embedding of Python `str.strip`. -/
def isSpaceChar (c : Char) : Bool :=
  c = ' ' || c = '\t' || c = '\n' || c = '\r'

/-- Drops leading whitespace. -/
def dropLeadSpace : List Char → List Char
  | [] => []
  | c :: t => if isSpaceChar c then dropLeadSpace t else c :: t

/-- Embeds Python `s.strip()`: whitespace removed from both ends. -/
def trimChars (l : List Char) : List Char :=
  (dropLeadSpace (dropLeadSpace l).reverse).reverse

/-- Embeds Python `s.split(",")`; as in Python, splitting the empty
string yields one empty piece. -/
def splitComma : List Char → List (List Char)
  | [] => [[]]
  | c :: t =>
    if c = ',' then [] :: splitComma t
    else
      match splitComma t with
      | [] => [[c]]
      | h :: r => (c :: h) :: r

/-- A value occurring in the YAML frontmatter payload of a record file. -/
inductive Yval where
  | str (s : String)
  | int (n : Int)
  | list (l : List String)
  | words (l : List (List (String × String)))
deriving DecidableEq

/-- A frontmatter payload: what `yaml.safe_load` of the metadata block
yields, as an association list. -/
abbrev Frontmatter := List (String × Yval)

/-- Embeds `frontmatter.get(k)` (no default): first binding of key `k`. -/
def fmGet (fm : Frontmatter) (k : String) : Option Yval :=
  (fm.find? (fun p => p.1 = k)).map (fun p => p.2)

/-- Embeds `frontmatter.get(k, d)` for a string-valued field. -/
def getStr (fm : Frontmatter) (k : String) (d : String) : String :=
  match fmGet fm k with
  | some (.str s) => s
  | _ => d

/-- Embeds `frontmatter.get(k, d)` for an integer-valued field. -/
def getInt (fm : Frontmatter) (k : String) (d : Int) : Int :=
  match fmGet fm k with
  | some (.int n) => n
  | _ => d

/-- Embeds `frontmatter.get(k, d)` for a list-of-strings field. -/
def getList (fm : Frontmatter) (k : String) (d : List String) : List String :=
  match fmGet fm k with
  | some (.list l) => l
  | _ => d

/-- Embeds `frontmatter.get(k, d)` for the `example_words` field. -/
def getWords (fm : Frontmatter) (k : String) (d : List (List (String × String))) :
    List (List (String × String)) :=
  match fmGet fm k with
  | some (.words l) => l
  | _ => d

/-- Embeds the list comprehension `[StrokeType(s) for s in l]` (and its
CSV analogue): `none` when any literal is unrecognized, since the
comprehension raises on the first bad element. -/
def mapOpt {α β : Type} (f : α → Option β) : List α → Option (List β)
  | [] => some []
  | a :: t =>
    match f a, mapOpt f t with
    | some b, some bs => some (b :: bs)
    | _, _ => none

/-- Embeds `_parse_radical_file` applied to a record whose metadata block
loads as `fm` (the file read, regex extraction and `yaml.safe_load` are
abstracted into `fm`).  A `ValueError` from `RadicalType(...)` or
`StrokeType(...)` is the `none` result: the enclosing `try` returns `None`
and the caller skips the record. -/
def parseRadicalFM (fm : Frontmatter) : Option Radical :=
  match RadicalType.ofValue (getStr fm "type" "unknown") with
  | none => none
  | some ty =>
    let so := getList fm "stroke_order" []
    match (if so.isEmpty then some [] else mapOpt StrokeType.ofValue so) with
    | none => none
    | some sol =>
      some { character := getStr fm "character" ""
             pinyin := getStr fm "pinyin" ""
             meaning := getStr fm "meaning" ""
             type := ty
             strokes := getInt fm "strokes" 0
             stroke_order := sol
             common_characters := getList fm "common_characters" []
             mnemonic := getStr fm "mnemonic" "" }

/-- Embeds `_parse_character_file` applied to a record whose metadata block
loads as `fm`.  As for radicals, an unrecognized stroke-shape literal makes
the whole parse yield `none`. -/
def parseCharacterFM (fm : Frontmatter) : Option Character :=
  let so := getList fm "stroke_order" []
  match (if so.isEmpty then some [] else mapOpt StrokeType.ofValue so) with
  | none => none
  | some sol =>
    some { character := getStr fm "character" ""
           pinyin := getStr fm "pinyin" ""
           tone := getInt fm "tone" 0
           meaning := getList fm "meaning" []
           radicals := getList fm "radicals" []
           strokes := getInt fm "strokes" 0
           stroke_order := sol
           components := getList fm "components" []
           hsk_level := getInt fm "hsk_level" 0
           frequency_rank := getInt fm "frequency_rank" 0
           mnemonic := getStr fm "mnemonic" ""
           example_words := getWords fm "example_words" []
           tags := getList fm "tags" [] }

/-- An optional frontmatter entry: the `if <truthy>: frontmatter[k] = v`
pattern of the save functions. -/
def optFM (b : Bool) (k : String) (v : Yval) : Frontmatter :=
  if b then [(k, v)] else []

/-- Embeds the frontmatter dictionary built by `_save_radical` (the plain
variant's metadata block; all three variants share it). -/
def radicalFrontmatter (r : Radical) : Frontmatter :=
  [("character", .str r.character), ("pinyin", .str r.pinyin),
   ("meaning", .str r.meaning), ("type", .str r.type.value),
   ("strokes", .int r.strokes), ("mnemonic", .str r.mnemonic)]
  ++ optFM (!r.stroke_order.isEmpty) "stroke_order"
       (.list (r.stroke_order.map StrokeType.value))
  ++ optFM (!r.common_characters.isEmpty) "common_characters"
       (.list r.common_characters)

/-- Embeds the frontmatter dictionary built by `_save_character`.  The
`hsk_level` and `frequency_rank` entries are written only when truthy
(nonzero), matching `if character.hsk_level:` in the source. -/
def characterFrontmatter (c : Character) : Frontmatter :=
  [("character", .str c.character), ("pinyin", .str c.pinyin),
   ("tone", .int c.tone), ("meaning", .list c.meaning),
   ("radicals", .list c.radicals), ("strokes", .int c.strokes),
   ("mnemonic", .str c.mnemonic)]
  ++ optFM (!c.stroke_order.isEmpty) "stroke_order"
       (.list (c.stroke_order.map StrokeType.value))
  ++ optFM (!c.components.isEmpty) "components" (.list c.components)
  ++ optFM (!c.example_words.isEmpty) "example_words" (.words c.example_words)
  ++ optFM (!c.tags.isEmpty) "tags" (.list c.tags)
  ++ optFM (c.hsk_level != 0) "hsk_level" (.int c.hsk_level)
  ++ optFM (c.frequency_rank != 0) "frequency_rank" (.int c.frequency_rank)

/-- Looks a key up in an insertion-ordered dictionary (Python `d[k]` /
`d.get(k)`). -/
def dlookup {α : Type} (d : List (String × α)) (k : String) : Option α :=
  (d.find? (fun p => p.1 = k)).map (fun p => p.2)

/-- Membership test `k in d` on a dictionary. -/
def dcontains {α : Type} (d : List (String × α)) (k : String) : Bool :=
  d.any (fun p => p.1 = k)

/-- Assignment `d[k] = v` on an insertion-ordered dictionary: replaces the
value in place when the key exists, otherwise appends the binding. -/
def dinsert {α : Type} (d : List (String × α)) (k : String) (v : α) :
    List (String × α) :=
  if dcontains d k then d.map (fun p => if p.1 = k then (k, v) else p)
  else d ++ [(k, v)]

/-- Python `set.add`: the underlying set of character keys, modelled as a
duplicate-free list extended at the back. -/
def setAdd (s : List String) (x : String) : List String :=
  if x ∈ s then s else s ++ [x]

/-- One step of the index-update loop of `add_character` / `load_data`:
create `index[r]` as an empty set when absent, then add `ch` to it. -/
def indexAdd (idx : List (String × List String)) (r ch : String) :
    List (String × List String) :=
  let idx1 := if dcontains idx r then idx else idx ++ [(r, [])]
  idx1.map (fun p => if p.1 = r then (p.1, setAdd p.2 ch) else p)

/-- Runs `indexAdd` for every radical key of a character, as the
`for radical in character.radicals:` loop does. -/
def indexAddAll (idx : List (String × List String)) (rs : List String)
    (ch : String) : List (String × List String) :=
  rs.foldl (fun i r => indexAdd i r ch) idx

/-- The in-memory state of `ChineseCharacterSystem`, together with a log of
the values handed to `_save_radical` / `_save_character` (which stands for
everything persisted to the three document roots). -/
structure Store where
  radicals : List (String × Radical) := []
  characters : List (String × Character) := []
  radical_index : List (String × List String) := []
  savedRadicals : List Radical := []
  savedChars : List Character := []
deriving DecidableEq

/-- Embeds `add_radical`: duplicate key fails with no mutation; otherwise
the radical is stored and persisted. -/
def addRadical (st : Store) (r : Radical) : Bool × Store :=
  if dcontains st.radicals r.character then (false, st)
  else
    (true, { st with radicals := dinsert st.radicals r.character r,
                     savedRadicals := st.savedRadicals ++ [r] })

/-- Embeds `add_character`: duplicate key fails with no mutation; otherwise
the character is stored, the inverted index is extended for every radical
key, and the character is persisted. -/
def addCharacter (st : Store) (c : Character) : Bool × Store :=
  if dcontains st.characters c.character then (false, st)
  else
    (true, { st with
               characters := dinsert st.characters c.character c,
               radical_index :=
                 indexAddAll st.radical_index c.radicals c.character,
               savedChars := st.savedChars ++ [c] })

/-- Embeds the character half of `load_data`: each parse result (one per
`*.md` file, `none` for a skipped record) is folded into the store; a
decoded character is stored under its key and indexed under each of its
radical keys. -/
def loadChars (st : Store) (parsed : List (Option Character)) : Store :=
  parsed.foldl
    (fun s oc =>
      match oc with
      | none => s
      | some c =>
        { s with characters := dinsert s.characters c.character c,
                 radical_index :=
                   indexAddAll s.radical_index c.radicals c.character })
    st

/-- Embeds `get_characters_by_radical`. -/
def getCharactersByRadical (st : Store) (r : String) : List Character :=
  match dlookup st.radical_index r with
  | none => []
  | some s => s.filterMap (fun ch => dlookup st.characters ch)

/-- Tests whether `n` matches at the head of `h` (prefix check used by the
substring test). -/
def leadMatch : List Char → List Char → Bool
  | [], _ => true
  | _ :: _, [] => false
  | a :: as, b :: bs => a == b && leadMatch as bs

/-- Embeds the Python substring operator `n in h` on strings, over their
character lists. -/
def strContains (n : List Char) : List Char → Bool
  | [] => leadMatch n []
  | b :: bs => leadMatch n (b :: bs) || strContains n bs

/-- The per-character match predicate of `search_characters`: the four
criteria in source order, joined by short-circuit disjunction (the `continue`
statements make each criterion fire at most once per character). -/
def matchChar (query : String) (c : Character) : Bool :=
  strContains query.toList c.character.toList ||
  strContains (lowerList query.toList) (lowerList c.pinyin.toList) ||
  c.meaning.any (fun m => strContains (lowerList query.toList) (lowerList m.toList)) ||
  c.tags.any (fun t => strContains (lowerList query.toList) (lowerList t.toList))

/-- Embeds `search_characters`: one pass over `characters.values()` in
insertion order, appending each matching character once. -/
def searchCharacters (query : String) (st : Store) : List Character :=
  (st.characters.map (fun p => p.2)).filter (matchChar query)

/-- The record returned by `generate_stats` (the `stats` dictionary). -/
structure Stats where
  total_characters : Nat
  total_radicals : Nat
  characters_by_hsk_level : List (Int × Nat)
  characters_by_stroke_count : List (Int × Nat)
  most_common_radicals : List (String × Nat)
deriving DecidableEq

/-- One step of the histogram loops of `generate_stats`: initialize a
missing bucket to 0, then increment it. -/
def bumpCount (m : List (Int × Nat)) (k : Int) : List (Int × Nat) :=
  let m1 := if m.any (fun p => p.1 = k) then m else m ++ [(k, 0)]
  m1.map (fun p => if p.1 = k then (p.1, p.2 + 1) else p)

/-- Inserts into a list already sorted by count descending, keeping the
descending order (together with `sortCountDesc` this embeds the stable
`sorted(..., key=count, reverse=True)` call). -/
def insertDesc (x : String × Nat) : List (String × Nat) → List (String × Nat)
  | [] => [x]
  | y :: ys => if y.2 ≤ x.2 then x :: y :: ys else y :: insertDesc x ys

/-- Sorts the `{radical, count}` pairs by count descending (stable). -/
def sortCountDesc (l : List (String × Nat)) : List (String × Nat) :=
  l.foldr insertDesc []

/-- Embeds `generate_stats`. `char.hsk_level or 0` is the identity on
integers with 0 for 0, written out as the source has it. -/
def generateStats (st : Store) : Stats :=
  { total_characters := st.characters.length
    total_radicals := st.radicals.length
    characters_by_hsk_level :=
      st.characters.foldl
        (fun m p => bumpCount m (if p.2.hsk_level = 0 then 0 else p.2.hsk_level)) []
    characters_by_stroke_count :=
      st.characters.foldl (fun m p => bumpCount m p.2.strokes) []
    most_common_radicals :=
      (sortCountDesc
        (st.radical_index.map (fun p => (p.1, p.2.length)))).take 10 }

/-- A CSV row as produced by `csv.DictReader`: column name to cell text. -/
abbrev Row := List (String × String)

/-- Embeds `row.get(k, d)` with a string default. -/
def rowGet (row : Row) (k d : String) : String :=
  (dlookup row k).getD d

/-- Decimal value of a digit string. -/
def digitsVal (ds : List Char) : Int :=
  ds.foldl (fun a c => a * 10 + ((c.toNat : Int) - 48)) 0

/-- Shared body of `pyInt`: sign applied to a nonempty all-digit tail. -/
def pyIntCore (sign : Int) (ds : List Char) : Option Int :=
  if !ds.isEmpty && ds.all Char.isDigit then some (sign * digitsVal ds)
  else none

/-- Embeds Python `int(s)` on a string: surrounding whitespace stripped,
optional sign, nonempty digit run; `none` where Python raises
`ValueError`. -/
def pyInt (s : String) : Option Int :=
  match trimChars s.toList with
  | '+' :: ds => pyIntCore 1 ds
  | '-' :: ds => pyIntCore (-1) ds
  | ds => pyIntCore 1 ds

/-- Embeds `int(row.get(k, 0))`: an absent column uses the integer default
`0`; a present cell goes through `int(...)` and may raise. -/
def rowIntField (row : Row) (k : String) : Option Int :=
  match dlookup row k with
  | none => some 0
  | some s => pyInt s

/-- Embeds Python `s.isdigit()` (ASCII digits). -/
def pyIsDigit (s : String) : Bool :=
  !s.isEmpty && s.toList.all Char.isDigit

/-- Embeds `[x.strip() for x in s.split(",")]`.  As in Python,
splitting the empty string yields `[""]`. -/
def splitTrim (s : String) : List String :=
  (splitComma s.toList).map (fun x => String.mk (trimChars x))

/-- Embeds the `stroke_order` cell handling of `import_from_csv`:
empty cell → empty order, otherwise each comma-separated literal goes
through `StrokeType(...)` and may raise. -/
def strokeOrderOfRow (row : Row) : Option (List StrokeType) :=
  let s := rowGet row "stroke_order" ""
  if s.isEmpty then some []
  else
    mapOpt (fun x => StrokeType.ofValue (String.mk (trimChars x)))
      (splitComma s.toList)

/-- Embeds the radical-branch row construction of `import_from_csv`:
`none` when `RadicalType(...)`, `int(...)` or a stroke literal raises. -/
def radicalOfRow (row : Row) : Option Radical :=
  match RadicalType.ofValue (rowGet row "type" "unknown"),
        rowIntField row "strokes" with
  | some ty, some strokes =>
    match strokeOrderOfRow row with
    | some so =>
      some { character := rowGet row "character" ""
             pinyin := rowGet row "pinyin" ""
             meaning := rowGet row "meaning" ""
             type := ty
             strokes := strokes
             stroke_order := so
             common_characters :=
               (let cc := rowGet row "common_characters" ""
                if cc.isEmpty then [] else splitTrim cc)
             mnemonic := rowGet row "mnemonic" "" }
    | none => none
  | _, _ => none

/-- Embeds the character-branch row construction of `import_from_csv`:
`tone` and `strokes` go through unguarded `int(...)` and may raise, while
`hsk_level` and `frequency_rank` are guarded by `isdigit()` and fall back
to 0. -/
def characterOfRow (row : Row) : Option Character :=
  match rowIntField row "tone", rowIntField row "strokes" with
  | some tone, some strokes =>
    match strokeOrderOfRow row with
    | some so =>
      some { character := rowGet row "character" ""
             pinyin := rowGet row "pinyin" ""
             tone := tone
             meaning := splitTrim (rowGet row "meaning" "")
             radicals := splitTrim (rowGet row "radicals" "")
             strokes := strokes
             stroke_order := so
             components :=
               (let cs := rowGet row "components" ""
                if cs.isEmpty then [] else splitTrim cs)
             hsk_level :=
               (let h := rowGet row "hsk_level" ""
                if !h.isEmpty && pyIsDigit h then digitsVal h.toList else 0)
             frequency_rank :=
               (let f := rowGet row "frequency_rank" ""
                if !f.isEmpty && pyIsDigit f then digitsVal f.toList else 0)
             mnemonic := rowGet row "mnemonic" ""
             tags :=
               (let t := rowGet row "tags" ""
                if t.isEmpty then [] else splitTrim t) }
    | none => none
  | _, _ => none

/-- Embeds `row.get("is_radical", "").lower() == "true"`. -/
def isRadicalRow (row : Row) : Bool :=
  lowerList (rowGet row "is_radical" "").toList == "true".toList

/-- Processes one row of the import loop: builds the domain value and routes it
through the corresponding add operation; `none` is a raised exception. -/
def processRow (st : Store) (row : Row) : Option Store :=
  if isRadicalRow row then
    (radicalOfRow row).map (fun r => (addRadical st r).2)
  else
    (characterOfRow row).map (fun c => (addCharacter st c).2)

/-- The row loop of `import_from_csv` with the surrounding
`try ... except: return 0`: an exception stops the loop, keeps every
mutation already made, and makes the function return 0. -/
def runRows (st : Store) (rows : List Row) (count : Nat) : Nat × Store :=
  match rows with
  | [] => (count, st)
  | row :: rest =>
    match processRow st row with
    | none => (0, st)
    | some st1 => runRows st1 rest (count + 1)

/-- Embeds `import_from_csv` on the parsed list of rows. -/
def importFromCSV (st : Store) (rows : List Row) : Nat × Store :=
  runRows st rows 0

/-- A row whose domain-value construction cannot raise (state-independent:
adds never raise, only return `False`). -/
def rowOk (row : Row) : Bool :=
  if isRadicalRow row then (radicalOfRow row).isSome
  else (characterOfRow row).isSome

/-- Count-descending order on the `{radical, count}` pairs of the stats. -/
def countGe (a b : String × Nat) : Prop := b.2 ≤ a.2

/-- The empty store (a fresh system over empty directories). -/
def store0 : Store := {}

/-- The 木 radical of the spec's scenario. -/
def sampleRadical : Radical :=
  { character := "木", pinyin := "mù", meaning := "wood",
    type := .SEMANTIC, strokes := 4 }

/-- The 林 character of the spec's scenario (its duplicated 木 radical
entry included). -/
def sampleChar : Character :=
  { character := "林", pinyin := "lín", tone := 2, meaning := ["forest"],
    radicals := ["木", "木"], strokes := 8, tags := ["nature"] }

/-- The store after adding `sampleRadical` and `sampleChar` to `store0`. -/
def store1 : Store :=
  (addCharacter (addRadical store0 sampleRadical).2 sampleChar).2

/-- A frontmatter payload with a role literal outside the enumeration. -/
def badTypeFM : Frontmatter :=
  [("character", .str "木"), ("type", .str "bogus")]

/-- A frontmatter payload with a stroke-shape literal outside the
enumeration. -/
def badStrokeFM : Frontmatter :=
  [("character", .str "林"), ("stroke_order", .list ["bogus"])]

/-- A frontmatter payload with no role field at all. -/
def noTypeFM : Frontmatter := [("character", .str "水")]

/-- The radical decoded from `noTypeFM`. -/
def noTypeRadical : Radical :=
  { character := "水", pinyin := "", meaning := "", type := .UNKNOWN,
    strokes := 0 }

/-- A well-formed character import row for 林. -/
def sampleRow : Row :=
  [("is_radical", "false"), ("character", "林"), ("pinyin", "lin"),
   ("meaning", "forest"), ("radicals", "木"), ("strokes", "8")]

/-- The character built from `sampleRow`. -/
def sampleRowChar : Character :=
  { character := "林", pinyin := "lin", tone := 0, meaning := ["forest"],
    radicals := ["木"], strokes := 8 }

/-- A character row with non-numeric `hsk_level` and `frequency_rank`. -/
def badHskRow : Row :=
  [("is_radical", "false"), ("character", "山"), ("strokes", "3"),
   ("hsk_level", "abc"), ("frequency_rank", "x1")]

/-- The character built from `badHskRow`: both guarded fields fall back
to 0. -/
def badHskChar : Character :=
  { character := "山", pinyin := "", tone := 0, meaning := [""],
    radicals := [""], strokes := 3 }

/-- A character row whose `strokes` cell is not numeric: `int("three")`
raises. -/
def badStrokesRow : Row :=
  [("is_radical", "false"), ("character", "口"), ("strokes", "three")]

theorem strokeTypeOfValue_value (s : StrokeType) : StrokeType.ofValue s.value = some s := by
  cases s <;> rfl

theorem radicalTypeOfValue_value (t : RadicalType) : RadicalType.ofValue t.value = some t := by
  cases t <;> rfl

theorem mapOpt_ofValue_map_value (l : List StrokeType) :
    mapOpt StrokeType.ofValue (l.map StrokeType.value) = some l := by
  induction l with
  | nil => rfl
  | cons a t ih => simp [mapOpt, strokeTypeOfValue_value, ih]

theorem parse_radicalFrontmatter (r : Radical) :
    parseRadicalFM (radicalFrontmatter r) = some r := by
  obtain ⟨ch, py, me, ty, st, so, cc, mn⟩ := r
  by_cases hso : so.isEmpty <;> by_cases hcc : cc.isEmpty <;>
    simp_all [parseRadicalFM, radicalFrontmatter, optFM, getStr, getInt, getList, fmGet,
      List.find?, radicalTypeOfValue_value, mapOpt_ofValue_map_value, List.isEmpty_iff]

set_option maxHeartbeats 2000000 in
theorem parse_characterFrontmatter (c : Character) :
    parseCharacterFM (characterFrontmatter c) = some c := by
  obtain ⟨ch, py, tn, me, ra, st, so, co, hs, fr, mn, ew, tg⟩ := c
  by_cases hso : so.isEmpty <;> by_cases hco : co.isEmpty <;>
    by_cases hew : ew.isEmpty <;> by_cases htg : tg.isEmpty <;>
    by_cases hhs : hs = 0 <;> by_cases hfr : fr = 0 <;>
    simp_all [parseCharacterFM, characterFrontmatter, optFM, getStr, getInt, getList,
      getWords, fmGet, List.find?, mapOpt_ofValue_map_value, List.isEmpty_iff]

/-- C1: decoding the plain-variant metadata block written by the save
operation reproduces every metadata field of the saved Radical or
Character, for fully populated values and for all-default values alike. -/
theorem decode_encode_roundtrip :
    (∀ r : Radical, parseRadicalFM (radicalFrontmatter r) = some r) ∧
    (∀ c : Character, parseCharacterFM (characterFrontmatter c) = some c) :=
  ⟨parse_radicalFrontmatter, parse_characterFrontmatter⟩

theorem dlookup_cons_self {α : Type} (k : String) (v : α) (t : List (String × α)) :
    dlookup ((k, v) :: t) k = some v := by
  simp [dlookup, List.find?_cons_of_pos]

theorem dlookup_cons_ne {α : Type} (k' k : String) (v : α) (t : List (String × α))
    (h : k' ≠ k) : dlookup ((k', v) :: t) k = dlookup t k := by
  simp only [dlookup]
  rw [List.find?_cons_of_neg]
  simp [h]

theorem dcontains_eq_dlookup_isSome {α : Type} (d : List (String × α)) (k : String) :
    dcontains d k = (dlookup d k).isSome := by
  induction d with
  | nil => rfl
  | cons p t ih =>
    obtain ⟨k', v⟩ := p
    by_cases h : k' = k
    · subst h
      simp [dcontains, dlookup_cons_self, List.any_cons]
    · rw [dlookup_cons_ne k' k v t h]
      simp [dcontains, List.any_cons, h] at ih ⊢
      exact ih

theorem find?_key_eq_none {α : Type} (d : List (String × α)) (k : String)
    (h : dcontains d k = false) : d.find? (fun p => p.1 = k) = none := by
  cases hfind : d.find? (fun p => (p.1 = k : Bool)) with
  | none => rfl
  | some p =>
    have hmem := List.mem_of_find?_eq_some hfind
    have hp := List.find?_some hfind
    have hc : dcontains d k = true := by
      simp only [dcontains, List.any_eq_true]
      exact ⟨p, hmem, hp⟩
    rw [h] at hc
    cases hc

theorem dlookup_append_right {α : Type} (d₁ d₂ : List (String × α)) (k : String)
    (h : dcontains d₁ k = false) : dlookup (d₁ ++ d₂) k = dlookup d₂ k := by
  simp [dlookup, List.find?_append, find?_key_eq_none d₁ k h]

theorem dlookup_append_left {α : Type} (d₁ d₂ : List (String × α)) (k : String) (v : α)
    (h : dlookup d₁ k = some v) : dlookup (d₁ ++ d₂) k = some v := by
  simp only [dlookup, Option.map_eq_some'] at h
  obtain ⟨p, hp, hv⟩ := h
  simp [dlookup, List.find?_append, hp, hv]

theorem dinsert_of_not_contains {α : Type} (d : List (String × α)) (k : String) (v : α)
    (h : dcontains d k = false) : dinsert d k v = d ++ [(k, v)] := by
  simp [dinsert, h]

theorem dcontains_append {α : Type} (d₁ d₂ : List (String × α)) (k : String) :
    dcontains (d₁ ++ d₂) k = (dcontains d₁ k || dcontains d₂ k) := by
  simp [dcontains, List.any_append]

theorem setAdd_self_mem (s : List String) (x : String) : x ∈ setAdd s x := by
  unfold setAdd
  split
  · assumption
  · simp

theorem setAdd_mem_of_mem (s : List String) (x y : String) (h : y ∈ s) :
    y ∈ setAdd s x := by
  unfold setAdd
  split
  · exact h
  · simp [h]

theorem dlookup_cons {α : Type} (k' k : String) (v : α) (t : List (String × α)) :
    dlookup ((k', v) :: t) k = if k' = k then some v else dlookup t k := by
  by_cases h : k' = k
  · subst h; rw [dlookup_cons_self, if_pos rfl]
  · rw [dlookup_cons_ne k' k v t h, if_neg h]

theorem dlookup_indexMap_self (ch r : String) (l : List (String × List String)) :
    dlookup (l.map (fun p => if p.1 = r then (p.1, setAdd p.2 ch) else p)) r =
      (dlookup l r).map (fun s => setAdd s ch) := by
  induction l with
  | nil => rfl
  | cons p t ih =>
    obtain ⟨k', v⟩ := p
    by_cases h : k' = r <;>
      simp [dlookup_cons, h, ih]

theorem dlookup_indexMap_ne (ch r k : String) (l : List (String × List String))
    (hrk : r ≠ k) :
    dlookup (l.map (fun p => if p.1 = r then (p.1, setAdd p.2 ch) else p)) k =
      dlookup l k := by
  induction l with
  | nil => rfl
  | cons p t ih =>
    obtain ⟨k', v⟩ := p
    by_cases h : k' = r
    · subst h
      have hk : ¬ k' = k := fun he => hrk (he ▸ rfl)
      simp [dlookup_cons, hk, ih]
    · by_cases hk : k' = k
      · subst hk
        simp [dlookup_cons, h]
      · simp [dlookup_cons, h, hk, ih]

theorem dcontains_indexMap (ch r k : String) (l : List (String × List String)) :
    dcontains (l.map (fun p => if p.1 = r then (p.1, setAdd p.2 ch) else p)) k =
      dcontains l k := by
  by_cases hrk : r = k
  · subst hrk
    rw [dcontains_eq_dlookup_isSome, dcontains_eq_dlookup_isSome,
      dlookup_indexMap_self]
    cases dlookup l r <;> rfl
  · rw [dcontains_eq_dlookup_isSome, dcontains_eq_dlookup_isSome,
      dlookup_indexMap_ne ch r k l hrk]

theorem indexAdd_self (idx : List (String × List String)) (r ch : String) :
    ∃ s, dlookup (indexAdd idx r ch) r = some s ∧ ch ∈ s := by
  unfold indexAdd
  by_cases hc : dcontains idx r
  · simp only [hc, if_pos]
    have hs : (dlookup idx r).isSome = true := by
      rw [← dcontains_eq_dlookup_isSome]; exact hc
    obtain ⟨s0, hs0⟩ := Option.isSome_iff_exists.mp hs
    refine ⟨setAdd s0 ch, ?_, setAdd_self_mem s0 ch⟩
    rw [dlookup_indexMap_self, hs0]
    rfl
  · simp only [hc, Bool.false_eq_true, not_false_iff, ite_false]
    refine ⟨setAdd [] ch, ?_, setAdd_self_mem [] ch⟩
    rw [List.map_append, dlookup_append_right, dlookup_indexMap_self]
    · rw [dlookup_cons_self]
      rfl
    · rw [dcontains_indexMap]
      simpa using hc

theorem indexAdd_preserves (idx : List (String × List String)) (r' ch' r ch : String)
    (s : List String) (h : dlookup idx r = some s) (hm : ch ∈ s) :
    ∃ s1, dlookup (indexAdd idx r' ch') r = some s1 ∧ ch ∈ s1 := by
  unfold indexAdd
  by_cases hrr : r' = r
  · subst hrr
    have hc : dcontains idx r' = true := by
      rw [dcontains_eq_dlookup_isSome, h]; rfl
    simp only [hc, if_pos]
    exact ⟨setAdd s ch', by rw [dlookup_indexMap_self, h]; rfl,
      setAdd_mem_of_mem s ch' ch hm⟩
  · by_cases hc : dcontains idx r'
    · simp only [hc, if_pos]
      exact ⟨s, by rw [dlookup_indexMap_ne ch' r' r idx hrr, h], hm⟩
    · simp only [hc, Bool.false_eq_true, not_false_iff, ite_false]
      refine ⟨s, ?_, hm⟩
      rw [List.map_append]
      exact dlookup_append_left _ _ r s
        (by rw [dlookup_indexMap_ne ch' r' r idx hrr]; exact h)

theorem indexAddAll_preserves (rs : List String) (idx : List (String × List String))
    (ch' r ch : String) (s : List String)
    (h : dlookup idx r = some s) (hm : ch ∈ s) :
    ∃ s1, dlookup (indexAddAll idx rs ch') r = some s1 ∧ ch ∈ s1 := by
  induction rs generalizing idx s with
  | nil => exact ⟨s, h, hm⟩
  | cons a t ih =>
    obtain ⟨s1, hs1, hm1⟩ := indexAdd_preserves idx a ch' r ch s h hm
    exact ih (indexAdd idx a ch') s1 hs1 hm1

theorem indexAddAll_mem (rs : List String) (idx : List (String × List String))
    (ch r : String) (h : r ∈ rs) :
    ∃ s, dlookup (indexAddAll idx rs ch) r = some s ∧ ch ∈ s := by
  induction rs generalizing idx with
  | nil => cases h
  | cons a t ih =>
    rcases List.mem_cons.mp h with rfl | ht
    · obtain ⟨s, hs, hm⟩ := indexAdd_self idx r ch
      exact indexAddAll_preserves t (indexAdd idx r ch) ch r ch s hs hm
    · exact ih (indexAdd idx a ch) ht

theorem loadChars_cons (st : Store) (oc : Option Character)
    (rest : List (Option Character)) :
    loadChars st (oc :: rest) =
      loadChars
        (match oc with
         | none => st
         | some c =>
           { st with characters := dinsert st.characters c.character c,
                     radical_index :=
                       indexAddAll st.radical_index c.radicals c.character })
        rest := rfl

theorem loadChars_index_preserves (parsed : List (Option Character)) (st : Store)
    (r ch : String) (s : List String)
    (h : dlookup st.radical_index r = some s) (hm : ch ∈ s) :
    ∃ s1, dlookup (loadChars st parsed).radical_index r = some s1 ∧ ch ∈ s1 := by
  induction parsed generalizing st s with
  | nil => exact ⟨s, h, hm⟩
  | cons oc rest ih =>
    rw [loadChars_cons]
    cases oc with
    | none => exact ih st s h hm
    | some c =>
      obtain ⟨s1, hs1, hm1⟩ :=
        indexAddAll_preserves c.radicals st.radical_index c.character r ch s h hm
      exact ih _ s1 hs1 hm1

/-- C2: after a successful `add_character(c)` — and likewise after the
load loop decodes `c` from a character record — every radical key of `c`
maps in the inverted index to a set containing `c.character` (the set
being created when the key was absent). -/
theorem add_character_index_invariant :
    (∀ (st : Store) (c : Character) (st1 : Store),
       addCharacter st c = (true, st1) →
       ∀ r ∈ c.radicals,
         ∃ s, dlookup st1.radical_index r = some s ∧ c.character ∈ s) ∧
    (∀ (st : Store) (parsed : List (Option Character)) (c : Character),
       some c ∈ parsed →
       ∀ r ∈ c.radicals,
         ∃ s, dlookup (loadChars st parsed).radical_index r = some s ∧
           c.character ∈ s) := by
  constructor
  · intro st c st1 hadd r hr
    unfold addCharacter at hadd
    by_cases hc : dcontains st.characters c.character
    · simp [hc] at hadd
    · simp only [hc, Bool.false_eq_true, not_false_iff, ite_false] at hadd
      obtain ⟨-, rfl⟩ := Prod.mk.injEq .. ▸ hadd
      exact indexAddAll_mem c.radicals st.radical_index c.character r hr
  · intro st parsed c hmem r hr
    induction parsed generalizing st with
    | nil => cases hmem
    | cons oc rest ih =>
      rw [loadChars_cons]
      rcases List.mem_cons.mp hmem with rfl | ht
      · obtain ⟨s, hs, hm⟩ :=
          indexAddAll_mem c.radicals st.radical_index c.character r hr
        exact loadChars_index_preserves rest _ r c.character s hs hm
      · cases oc with
        | none => exact ih st ht
        | some c2 => exact ih _ ht

/-- C2 witness: adding 林 (radicals 木, 木) to the store holding the 木
radical puts 林 into the index entry of 木. -/
theorem add_character_index_invariant_witness :
    ∃ s, dlookup store1.radical_index "木" = some s ∧ "林" ∈ s :=
  add_character_index_invariant.1 (addRadical store0 sampleRadical).2 sampleChar
    store1 (by decide) "木" (by decide)

/-- C3: an add on an already-present key returns failure with no mutation
at all — the stored value stays the first-inserted one, the index is
untouched and nothing new is persisted — for characters and radicals
alike. -/
theorem duplicate_add_no_mutation :
    (∀ (st : Store) (c : Character) (st1 : Store) (c2 : Character),
       addCharacter st c = (true, st1) → c2.character = c.character →
       addCharacter st1 c2 = (false, st1) ∧
         dlookup st1.characters c.character = some c) ∧
    (∀ (st : Store) (r : Radical) (st1 : Store) (r2 : Radical),
       addRadical st r = (true, st1) → r2.character = r.character →
       addRadical st1 r2 = (false, st1) ∧
         dlookup st1.radicals r.character = some r) := by
  constructor
  · intro st c st1 c2 hadd hk
    unfold addCharacter at hadd
    by_cases hc : dcontains st.characters c.character
    · simp [hc] at hadd
    · simp only [hc, Bool.false_eq_true, not_false_iff, ite_false] at hadd
      obtain ⟨-, rfl⟩ := Prod.mk.injEq .. ▸ hadd
      have hchars : dinsert st.characters c.character c =
          st.characters ++ [(c.character, c)] :=
        dinsert_of_not_contains _ _ _ (by simpa using hc)
      have hlook : dlookup (dinsert st.characters c.character c) c.character =
          some c := by
        rw [hchars, dlookup_append_right _ _ _ (by simpa using hc),
          dlookup_cons_self]
      refine ⟨?_, hlook⟩
      unfold addCharacter
      have hcont : dcontains (dinsert st.characters c.character c) c2.character =
          true := by
        rw [hk, dcontains_eq_dlookup_isSome, hlook]; rfl
      simp [hcont]
  · intro st r st1 r2 hadd hk
    unfold addRadical at hadd
    by_cases hc : dcontains st.radicals r.character
    · simp [hc] at hadd
    · simp only [hc, Bool.false_eq_true, not_false_iff, ite_false] at hadd
      obtain ⟨-, rfl⟩ := Prod.mk.injEq .. ▸ hadd
      have hchars : dinsert st.radicals r.character r =
          st.radicals ++ [(r.character, r)] :=
        dinsert_of_not_contains _ _ _ (by simpa using hc)
      have hlook : dlookup (dinsert st.radicals r.character r) r.character =
          some r := by
        rw [hchars, dlookup_append_right _ _ _ (by simpa using hc),
          dlookup_cons_self]
      refine ⟨?_, hlook⟩
      unfold addRadical
      have hcont : dcontains (dinsert st.radicals r.character r) r2.character =
          true := by
        rw [hk, dcontains_eq_dlookup_isSome, hlook]; rfl
      simp [hcont]

/-- C3 witness: re-adding 林 to `store1` fails and leaves the stored value
at the first insert; likewise for the 木 radical. -/
theorem duplicate_add_no_mutation_witness :
    (addCharacter store1 sampleChar = (false, store1) ∧
      dlookup store1.characters "林" = some sampleChar) ∧
    (addRadical (addRadical store0 sampleRadical).2 sampleRadical =
        (false, (addRadical store0 sampleRadical).2) ∧
      dlookup (addRadical store0 sampleRadical).2.radicals "木" =
        some sampleRadical) :=
  ⟨duplicate_add_no_mutation.1 (addRadical store0 sampleRadical).2 sampleChar
      store1 sampleChar (by decide) rfl,
   duplicate_add_no_mutation.2 store0 sampleRadical
      (addRadical store0 sampleRadical).2 sampleRadical (by decide) rfl⟩

theorem leadMatch_nil (h : List Char) : leadMatch [] h = true := by
  cases h <;> rfl

theorem strContains_nil (h : List Char) : strContains [] h = true := by
  induction h with
  | nil => rfl
  | cons b bs ih => simp [strContains, leadMatch_nil, ih]

theorem leadMatch_refl (l : List Char) : leadMatch l l = true := by
  induction l with
  | nil => rfl
  | cons a t ih => simp [leadMatch, ih]

theorem strContains_refl (l : List Char) : strContains l l = true := by
  cases l with
  | nil => rfl
  | cons b bs => simp [strContains, leadMatch_refl]

theorem empty_toList : ("" : String).toList = [] := rfl

theorem matchChar_empty (c : Character) : matchChar "" c = true := by
  simp [matchChar, empty_toList, strContains_nil]

theorem matchChar_self (c : Character) : matchChar c.character c = true := by
  simp [matchChar, strContains_refl]

/-- C4: the empty query returns every stored character (in store order,
each exactly once); each stored character is found by querying its own
grapheme; and a search never returns a character more often than the
store holds it, the first matching criterion short-circuiting the rest. -/
theorem search_totality (st : Store) :
    searchCharacters "" st = st.characters.map (fun p => p.2) ∧
    (∀ c ∈ st.characters.map (fun p => p.2),
       c ∈ searchCharacters c.character st) ∧
    (∀ (q : String) (c : Character),
       (searchCharacters q st).count c ≤
         (st.characters.map (fun p => p.2)).count c) := by
  refine ⟨?_, ?_, ?_⟩
  · unfold searchCharacters
    exact List.filter_eq_self.mpr (fun a _ => matchChar_empty a)
  · intro c hc
    unfold searchCharacters
    exact List.mem_filter.mpr ⟨hc, matchChar_self c⟩
  · intro q c
    exact List.Sublist.count_le (List.filter_sublist _) c

/-- C4 witness: on the one-character store, the empty query returns
exactly 林, and querying 林 finds it. -/
theorem search_totality_witness :
    searchCharacters "" store1 = [sampleChar] ∧
      sampleChar ∈ searchCharacters sampleChar.character store1 :=
  ⟨(search_totality store1).1.trans (by decide),
   (search_totality store1).2.1 sampleChar (by decide)⟩

/-- C5: a radical key absent from the index yields the empty collection
(never an error), and otherwise the result is exactly the set of
characters whose keys sit in the index entry and still exist in the
character map (stale keys are filtered out). -/
theorem chars_by_radical_lookup (st : Store) (r : String) :
    (dlookup st.radical_index r = none → getCharactersByRadical st r = []) ∧
    (∀ c : Character,
       c ∈ getCharactersByRadical st r ↔
         ∃ s ch, dlookup st.radical_index r = some s ∧ ch ∈ s ∧
           dlookup st.characters ch = some c) := by
  cases h : dlookup st.radical_index r with
  | none =>
    refine ⟨fun _ => by simp [getCharactersByRadical, h], fun c => ?_⟩
    simp [getCharactersByRadical, h]
  | some s =>
    constructor
    · intro he
      cases he
    · intro c
      simp [getCharactersByRadical, h, List.mem_filterMap]

/-- C5 witness: a never-indexed key returns the empty collection on
`store1`, and the indexed key 木 returns 林. -/
theorem chars_by_radical_lookup_witness :
    getCharactersByRadical store1 "不存在" = [] ∧
      sampleChar ∈ getCharactersByRadical store1 "木" :=
  ⟨(chars_by_radical_lookup store1 "不存在").1 (by decide),
   (chars_by_radical_lookup store1 "木").2 sampleChar |>.mpr
     ⟨["林"], "林", by decide, by decide, by decide⟩⟩

theorem mem_insertDesc (x y : String × Nat) (l : List (String × Nat)) :
    y ∈ insertDesc x l ↔ y = x ∨ y ∈ l := by
  induction l with
  | nil => simp [insertDesc]
  | cons a t ih =>
    by_cases h : a.2 ≤ x.2
    · simp [insertDesc, h]
    · simp only [insertDesc, if_neg h, List.mem_cons, ih]
      tauto

theorem sorted_insertDesc (x : String × Nat) (l : List (String × Nat))
    (h : List.Sorted countGe l) : List.Sorted countGe (insertDesc x l) := by
  induction l with
  | nil => simp [insertDesc, countGe]
  | cons a t ih =>
    rw [List.sorted_cons] at h
    obtain ⟨ha, ht⟩ := h
    by_cases hax : a.2 ≤ x.2
    · simp only [insertDesc, if_pos hax]
      rw [List.sorted_cons]
      refine ⟨?_, List.sorted_cons.mpr ⟨ha, ht⟩⟩
      intro b hb
      rcases List.mem_cons.mp hb with rfl | hbt
      · exact hax
      · exact le_trans (ha b hbt) hax
    · simp only [insertDesc, if_neg hax]
      rw [List.sorted_cons]
      refine ⟨?_, ih ht⟩
      intro b hb
      rcases (mem_insertDesc x b t).mp hb with rfl | hbt
      · unfold countGe
        omega
      · exact ha b hbt

theorem sorted_sortCountDesc (l : List (String × Nat)) :
    List.Sorted countGe (sortCountDesc l) := by
  induction l with
  | nil => simp [sortCountDesc]
  | cons a t ih => exact sorted_insertDesc a _ ih

theorem mem_sortCountDesc (y : String × Nat) (l : List (String × Nat)) :
    y ∈ sortCountDesc l ↔ y ∈ l := by
  induction l with
  | nil => simp [sortCountDesc]
  | cons a t ih =>
    show y ∈ insertDesc a (sortCountDesc t) ↔ _
    rw [mem_insertDesc, ih]
    simp

/-- C6: the stats report the exact numbers of stored characters and
radicals, and `most_common_radicals` is at most 10 long, sorted by count
descending, each count being the size of that radical's index entry. -/
theorem stats_properties (st : Store) :
    (generateStats st).total_characters = st.characters.length ∧
    (generateStats st).total_radicals = st.radicals.length ∧
    (generateStats st).most_common_radicals.length ≤ 10 ∧
    List.Sorted countGe (generateStats st).most_common_radicals ∧
    ∀ p ∈ (generateStats st).most_common_radicals,
      ∃ s, (p.1, s) ∈ st.radical_index ∧ p.2 = s.length := by
  refine ⟨rfl, rfl, ?_, ?_, ?_⟩
  · exact List.length_take_le 10 _
  · exact List.Pairwise.sublist (List.take_sublist 10 _) (sorted_sortCountDesc _)
  · intro p hp
    have hp2 : p ∈ sortCountDesc (st.radical_index.map (fun q => (q.1, q.2.length))) :=
      List.take_subset 10 _ hp
    have hp3 := (mem_sortCountDesc p _).mp hp2
    obtain ⟨q, hq, hfq⟩ := List.mem_map.mp hp3
    cases hfq
    exact ⟨q.2, by simpa using hq, rfl⟩

/-- C6 witness: on `store1` the totals are 1 and 1 and the single index
entry of 木 carries count 1. -/
theorem stats_properties_witness :
    (generateStats store1).total_characters = 1 ∧
    (∃ s, ("木", s) ∈ store1.radical_index ∧ 1 = s.length) :=
  ⟨(stats_properties store1).1.trans (by decide),
   (stats_properties store1).2.2.2.2 ("木", 1) (by decide)⟩

theorem mapOpt_eq_none {α β : Type} (f : α → Option β) (l : List α) (x : α)
    (hx : x ∈ l) (hf : f x = none) : mapOpt f l = none := by
  induction l with
  | nil => cases hx
  | cons a t ih =>
    rcases List.mem_cons.mp hx with rfl | ht
    · simp [mapOpt, hf]
    · cases hfa : f a <;> simp [mapOpt, hfa, ih ht]

/-- C7 counterexample: a payload carrying the unrecognized role literal
"bogus" decodes to no radical at all (the parse raises and the record is
skipped) instead of falling back to the unknown sentinel, and likewise an
unrecognized stroke-shape literal yields no character. -/
theorem enum_fallback_counterexample :
    parseRadicalFM badTypeFM = none ∧ parseCharacterFM badStrokeFM = none := by
  constructor <;> decide

/-- C7 amended: a role or stroke-shape literal outside the known set makes
decode fail deterministically, producing no value so the record is
skipped, while an absent role field defaults to the unknown sentinel
without failing. -/
theorem enum_strict_parse :
    (∀ fm : Frontmatter, fmGet fm "type" = none →
       ∀ r : Radical, parseRadicalFM fm = some r →
         r.type = RadicalType.UNKNOWN) ∧
    (∀ (fm : Frontmatter) (s : String), fmGet fm "type" = some (.str s) →
       RadicalType.ofValue s = none → parseRadicalFM fm = none) ∧
    (∀ (fm : Frontmatter) (l : List String) (x : String),
       fmGet fm "stroke_order" = some (.list l) → x ∈ l →
       StrokeType.ofValue x = none → parseCharacterFM fm = none) := by
  refine ⟨?_, ?_, ?_⟩
  · intro fm hnone r hr
    have h1 : getStr fm "type" "unknown" = "unknown" := by
      simp [getStr, hnone]
    have h2 : RadicalType.ofValue "unknown" = some RadicalType.UNKNOWN := rfl
    unfold parseRadicalFM at hr
    rw [h1, h2] at hr
    simp only [] at hr
    split at hr
    · cases hr
    · cases hr
      rfl
  · intro fm s hs hnone
    have h1 : getStr fm "type" "unknown" = s := by
      simp [getStr, hs]
    unfold parseRadicalFM
    rw [h1, hnone]
  · intro fm l x hl hx hof
    have h1 : getList fm "stroke_order" [] = l := by
      simp [getList, hl]
    have hne : l.isEmpty = false := by
      cases l with
      | nil => cases hx
      | cons a t => rfl
    have h2 : mapOpt StrokeType.ofValue l = none :=
      mapOpt_eq_none _ l x hx hof
    simp [parseCharacterFM, h1, hne, h2]

/-- C7 amended witness: the payload with no role field decodes with the
unknown sentinel, and the payload with an out-of-set stroke literal
decodes to nothing. -/
theorem enum_strict_parse_witness :
    noTypeRadical.type = RadicalType.UNKNOWN ∧
      parseCharacterFM badStrokeFM = none :=
  ⟨enum_strict_parse.1 noTypeFM (by decide) noTypeRadical (by decide),
   enum_strict_parse.2.2 badStrokeFM ["bogus"] "bogus" (by decide) (by decide)
     (by decide)⟩

theorem processRow_of_ok (st : Store) (row : Row) (h : rowOk row = true) :
    ∃ st1, processRow st row = some st1 := by
  unfold rowOk at h
  unfold processRow
  cases hir : isRadicalRow row with
  | true =>
    rw [hir] at h
    simp only [if_pos] at h ⊢
    obtain ⟨r, hr⟩ := Option.isSome_iff_exists.mp h
    exact ⟨(addRadical st r).2, by rw [hr]; rfl⟩
  | false =>
    rw [hir] at h
    simp only [Bool.false_eq_true, if_neg, not_false_iff] at h ⊢
    obtain ⟨c, hc⟩ := Option.isSome_iff_exists.mp h
    exact ⟨(addCharacter st c).2, by rw [hc]; rfl⟩

theorem processRow_of_not_ok (st : Store) (row : Row) (h : rowOk row = false) :
    processRow st row = none := by
  unfold rowOk at h
  unfold processRow
  cases hir : isRadicalRow row with
  | true =>
    rw [hir] at h
    simp only [if_pos] at h ⊢
    cases hro : radicalOfRow row with
    | none => rfl
    | some r => simp [hro] at h
  | false =>
    rw [hir] at h
    simp only [Bool.false_eq_true, if_neg, not_false_iff] at h ⊢
    cases hro : characterOfRow row with
    | none => rfl
    | some c => simp [hro] at h

theorem runRows_count_ok (rows : List Row) (h : ∀ row ∈ rows, rowOk row = true) :
    ∀ (st : Store) (n : Nat), (runRows st rows n).1 = n + rows.length := by
  induction rows with
  | nil =>
    intro st n
    simp [runRows]
  | cons row rest ih =>
    intro st n
    obtain ⟨st1, hst1⟩ := processRow_of_ok st row (h row (List.mem_cons_self row rest))
    rw [runRows, hst1]
    have := ih (fun r hr => h r (List.mem_cons_of_mem row hr)) st1 (n + 1)
    rw [this]
    simp
    omega

/-- C8: when every row constructs cleanly, the import returns exactly the
number of rows, and a row whose key already exists is still counted: the
duplicate add only fails silently, mutating nothing. -/
theorem import_row_count :
    (∀ (st : Store) (rows : List Row), (∀ row ∈ rows, rowOk row = true) →
       (importFromCSV st rows).1 = rows.length) ∧
    (∀ (st : Store) (row : Row) (c : Character), isRadicalRow row = false →
       characterOfRow row = some c →
       dcontains st.characters c.character = true →
       importFromCSV st [row] = (1, st)) := by
  constructor
  · intro st rows h
    have := runRows_count_ok rows h st 0
    simpa [importFromCSV] using this
  · intro st row c hir hc hdup
    have hp : processRow st row = some st := by
      unfold processRow
      rw [hir]
      simp only [Bool.false_eq_true, if_neg, not_false_iff]
      rw [hc]
      unfold addCharacter
      simp [hdup]
    unfold importFromCSV
    rw [runRows, hp]
    rfl

/-- C8 witness: importing the same 林 row twice into the empty store
counts 2 rows, and importing it into the store already holding 林 counts
the row while mutating nothing. -/
theorem import_row_count_witness :
    (importFromCSV store0 [sampleRow, sampleRow]).1 = 2 ∧
      importFromCSV store1 [sampleRow] = (1, store1) :=
  ⟨import_row_count.1 store0 [sampleRow, sampleRow] (by decide),
   import_row_count.2 store1 sampleRow sampleRowChar (by decide) (by decide)
     (by decide)⟩

/-- C9: a non-numeric `hsk_level` or `frequency_rank` cell does not fail
the import — both fields fall back to 0 behind the digit-string guard —
while a malformed `strokes` cell raises and makes the whole import report
failure (return 0) instead of defaulting. -/
theorem import_numeric_fields :
    (∀ (row : Row) (c : Character),
       pyIsDigit (rowGet row "hsk_level" "") = false →
       pyIsDigit (rowGet row "frequency_rank" "") = false →
       characterOfRow row = some c →
       c.hsk_level = 0 ∧ c.frequency_rank = 0) ∧
    (∀ (st : Store) (row : Row) (s : String), isRadicalRow row = false →
       dlookup row "strokes" = some s → pyInt s = none →
       importFromCSV st [row] = (0, st)) := by
  constructor
  · intro row c hh hf hc
    unfold characterOfRow at hc
    split at hc
    · split at hc
      · cases hc
        constructor <;> simp [hh, hf]
      · cases hc
    · cases hc
  · intro st row s hir hs hpi
    have hrow : rowIntField row "strokes" = none := by
      unfold rowIntField
      rw [hs]
      exact hpi
    have hcrow : characterOfRow row = none := by
      cases h1 : rowIntField row "tone" with
      | none => simp [characterOfRow, h1]
      | some tone => simp [characterOfRow, h1, hrow]
    have hp : processRow st row = none := by
      unfold processRow
      rw [hir]
      simp only [Bool.false_eq_true, if_neg, not_false_iff]
      rw [hcrow]
      rfl
    unfold importFromCSV
    rw [runRows, hp]

/-- C9 witness: the 山 row with `hsk_level=abc`, `frequency_rank=x1`
builds a character with both fields 0, and the 口 row with
`strokes=three` makes the import of that single row return 0 and leave
the store untouched. -/
theorem import_numeric_fields_witness :
    (badHskChar.hsk_level = 0 ∧ badHskChar.frequency_rank = 0) ∧
      importFromCSV store0 [badStrokesRow] = (0, store0) :=
  ⟨import_numeric_fields.1 badHskRow badHskChar (by decide) (by decide)
     (by decide),
   import_numeric_fields.2 store0 badStrokesRow "three" (by decide) (by decide)
     (by decide)⟩

theorem runRows_fail_append (good : List Row) (bad : Row) (rest : List Row)
    (hg : ∀ row ∈ good, rowOk row = true) (hb : rowOk bad = false) :
    ∀ (st : Store) (n : Nat),
      runRows st (good ++ bad :: rest) n = (0, (runRows st good n).2) := by
  induction good with
  | nil =>
    intro st n
    have hp := processRow_of_not_ok st bad hb
    simp [runRows, hp]
  | cons g gs ih =>
    intro st n
    obtain ⟨st1, hst1⟩ := processRow_of_ok st g (hg g (List.mem_cons_self g gs))
    simp only [List.cons_append, runRows, hst1]
    exact ih (fun r hr => hg r (List.mem_cons_of_mem g hr)) st1 (n + 1)

/-- C10: when a later row raises mid-scan, the import returns 0, yet every
row processed before the failing one stays added to the store and
persisted — the final state is exactly the state after importing the good
prefix alone. -/
theorem import_not_atomic (st : Store) (good : List Row) (bad : Row)
    (rest : List Row) (hg : ∀ row ∈ good, rowOk row = true)
    (hb : rowOk bad = false) :
    importFromCSV st (good ++ bad :: rest) = (0, (importFromCSV st good).2) := by
  unfold importFromCSV
  exact runRows_fail_append good bad rest hg hb st 0

/-- C10 witness: importing the good 林 row followed by the bad 口 row
returns count 0 while 林 remains in the resulting store. -/
theorem import_not_atomic_witness :
    importFromCSV store0 [sampleRow, badStrokesRow] =
        (0, (importFromCSV store0 [sampleRow]).2) ∧
      dcontains (importFromCSV store0 [sampleRow, badStrokesRow]).2.characters
        "林" = true := by
  have h := import_not_atomic store0 [sampleRow] badStrokesRow []
    (by decide) (by decide)
  have h2 : importFromCSV store0 [sampleRow, badStrokesRow] =
      (0, (importFromCSV store0 [sampleRow]).2) := h
  exact ⟨h2, by rw [h2]; decide⟩

end HomoHanzi
